import Mathlib

/-
  Verification development for the satori-video-sdk-cpp repository.

  The definitions below shallowly embed the parts of the code that the
  claims address: the packet data model and frame packetization
  (src/unnamed/part_000, spec section 4.G), the file source generator
  (src/unnamed/part_002), the error enumerations (src/src/video_error.cpp,
  src/src/streams/stream_error.cpp), the bot-environment signal handler
  (src/src/bot_environment.cpp), and spec-modelled stream combinators whose
  implementation (streams_impl.h) is not part of the given sources.

  Machine integers are modelled as Nat/Int; byte strings are lists of Nat
  with an explicit bound of 256 where it matters.
-/

namespace SatoriVideo

/- ===================== Base64 ===================== -/

/-- The base64 alphabet as ASCII codes: A-Z, a-z, 0-9, plus, slash.
Used by the textual wire form of packets (spec sections 3 and 4.G);
the base64 codec itself is an external collaborator of the repository,
modelled here concretely so the chunking bound and the round-trip can be
stated. -/
def b64alphabet : List Nat :=
  [65, 66, 67, 68, 69, 70, 71, 72, 73, 74, 75, 76, 77, 78, 79, 80, 81, 82,
   83, 84, 85, 86, 87, 88, 89, 90,
   97, 98, 99, 100, 101, 102, 103, 104, 105, 106, 107, 108, 109, 110, 111,
   112, 113, 114, 115, 116, 117, 118, 119, 120, 121, 122,
   48, 49, 50, 51, 52, 53, 54, 55, 56, 57,
   43, 47]

/-- Sextet value to base64 character code. -/
def b64c (n : Nat) : Nat := b64alphabet.getD n 0

/-- Base64 character code back to its sextet value. -/
def b64v (c : Nat) : Nat := b64alphabet.indexOf c

/-- ASCII code of the base64 padding character. -/
def b64pad : Nat := 61

/-- Base64-encode a byte list (bytes as Nat below 256), producing the list
of ASCII codes of the encoded text, with padding. -/
def b64encode : List Nat → List Nat
  | [] => []
  | [a] => [b64c (a / 4), b64c (a % 4 * 16), b64pad, b64pad]
  | [a, b] => [b64c (a / 4), b64c (a % 4 * 16 + b / 16), b64c (b % 16 * 4), b64pad]
  | a :: b :: c :: rest =>
      b64c (a / 4) :: b64c (a % 4 * 16 + b / 16) :: b64c (b % 16 * 4 + c / 64) ::
        b64c (c % 64) :: b64encode rest

/-- Base64-decode a list of ASCII codes back to bytes. -/
def b64decode : List Nat → List Nat
  | s1 :: s2 :: s3 :: s4 :: rest =>
      if s3 = b64pad then [b64v s1 * 4 + b64v s2 / 16]
      else if s4 = b64pad then
        [b64v s1 * 4 + b64v s2 / 16, b64v s2 % 16 * 16 + b64v s3 / 4]
      else
        (b64v s1 * 4 + b64v s2 / 16) :: (b64v s2 % 16 * 16 + b64v s3 / 4) ::
          (b64v s3 % 4 * 64 + b64v s4) :: b64decode rest
  | _ => []

theorem b64v_b64c : ∀ k, k < 64 → b64v (b64c k) = k := by decide

theorem b64c_ne_pad : ∀ k, k < 64 → b64c k ≠ b64pad := by decide

theorem b64decode_b64encode : ∀ l : List Nat, (∀ x ∈ l, x < 256) →
    b64decode (b64encode l) = l
  | [], _ => rfl
  | [a], h => by
    have ha : a < 256 := h a (by simp)
    have h1 : a / 4 < 64 := by omega
    have h2 : a % 4 * 16 < 64 := by omega
    simp only [b64encode, b64decode, if_true]
    rw [b64v_b64c _ h1, b64v_b64c _ h2]
    simp only [List.cons.injEq, and_true]
    omega
  | [a, b], h => by
    have ha : a < 256 := h a (by simp)
    have hb : b < 256 := h b (by simp)
    have h1 : a / 4 < 64 := by omega
    have h2 : a % 4 * 16 + b / 16 < 64 := by omega
    have h3 : b % 16 * 4 < 64 := by omega
    simp only [b64encode, b64decode]
    rw [if_neg (b64c_ne_pad _ h3), if_true]
    rw [b64v_b64c _ h1, b64v_b64c _ h2, b64v_b64c _ h3]
    simp only [List.cons.injEq, and_true]
    omega
  | a :: b :: c :: rest, h => by
    have ha : a < 256 := h a (by simp)
    have hb : b < 256 := h b (by simp)
    have hc : c < 256 := h c (by simp)
    have h1 : a / 4 < 64 := by omega
    have h2 : a % 4 * 16 + b / 16 < 64 := by omega
    have h3 : b % 16 * 4 + c / 64 < 64 := by omega
    have h4 : c % 64 < 64 := by omega
    have ih := b64decode_b64encode rest (fun x hx => h x (by simp [hx]))
    simp only [b64encode, b64decode]
    rw [if_neg (b64c_ne_pad _ h3), if_neg (b64c_ne_pad _ h4)]
    rw [b64v_b64c _ h1, b64v_b64c _ h2, b64v_b64c _ h3, b64v_b64c _ h4, ih]
    simp only [List.cons.injEq, and_true]
    omega

theorem b64encode_append : ∀ l1 l2 : List Nat, l1.length % 3 = 0 →
    b64encode (l1 ++ l2) = b64encode l1 ++ b64encode l2
  | [], _, _ => by simp [b64encode]
  | [_], _, h => by simp at h
  | [_, _], _, h => by simp at h
  | a :: b :: c :: rest, l2, h => by
    have hr : rest.length % 3 = 0 := by simp at h; omega
    have ih := b64encode_append rest l2 hr
    simp only [List.cons_append, b64encode, ih, List.append_eq]

theorem b64encode_length : ∀ l : List Nat,
    (b64encode l).length = 4 * ((l.length + 2) / 3)
  | [] => rfl
  | [_] => by simp [b64encode]
  | [_, _] => by simp [b64encode]
  | _ :: _ :: _ :: rest => by
    have ih := b64encode_length rest
    simp only [b64encode, List.length_cons, ih]
    omega

/- ===================== Packet data model ===================== -/

/-- Embedded from src/unnamed/part_000: maximum size of a textual fragment
payload (static constexpr size_t max_payload_size = 65000). -/
def max_payload_size : Nat := 65000

/-- Largest binary chunk size whose base64 text fits in max_payload_size:
base64 of k bytes has 4 * ceil(k / 3) characters, so k = 48750 = 3 * 16250
is the largest size with 4 * 16250 = 65000 characters.  48750 is a multiple
of 3, so every non-final chunk encodes without padding and the chunk texts
concatenate to the base64 text of the whole payload. -/
def binary_chunk_size : Nat := 48750

/-- Embedded from src/unnamed/part_000: frame id is an integer interval,
implemented this way because one of the sources is RTP. -/
structure frame_id where
  i1 : Int
  i2 : Int
deriving DecidableEq, Repr

/-- Embedded from src/unnamed/part_000: network representation of an
encoded video frame; binary data is converted into base64 because the
transport supports only text data.  The base64 text is kept as a list of
ASCII codes; the timestamp is milliseconds since epoch as Int. -/
structure network_frame where
  base64_data : List Nat
  id : frame_id
  t : Int
  chunk : Nat
  chunks : Nat
deriving DecidableEq, Repr

/-- Embedded from src/unnamed/part_000: an encoded frame, bytes plus id. -/
structure encoded_frame where
  data : List Nat
  id : frame_id
deriving DecidableEq, Repr

/-- Split a byte list into chunks of at most binary_chunk_size bytes; every
chunk except the last is exactly binary_chunk_size bytes.  Empty data gives
one empty chunk, so there is always at least one chunk.  The fuel argument
only bounds the recursion so that the definition is structural and reduces
in the kernel; chunkBytes supplies enough fuel for it never to run out. -/
def chunkBytesF : Nat → List Nat → List (List Nat)
  | 0, data => [data]
  | fuel + 1, data =>
    if data.length ≤ binary_chunk_size then [data]
    else data.take binary_chunk_size :: chunkBytesF fuel (data.drop binary_chunk_size)

def chunkBytes (data : List Nat) : List (List Nat) := chunkBytesF data.length data

/-- Build the network frames for the given chunk payloads, numbering them
idx, idx+1, ... and stamping every one with the same id, timestamp and
total chunk count. -/
def mkNetworkFrames (id : frame_id) (t : Int) (total : Nat) :
    Nat → List (List Nat) → List network_frame
  | _, [] => []
  | idx, p :: ps =>
      ⟨b64encode p, id, t, idx, total⟩ :: mkNetworkFrames id t total (idx + 1) ps

/-- Modelled from the spec: the body of encoded_frame::to_network is not
among the given sources (src/unnamed/part_000 declares it only).  Spec
section 4.G: splits the binary payload into 1..N chunks such that each
chunk's base64 text is at most 65,000 bytes; assigns ascending chunk 1..N
with chunks = N; stamps each with t and id. -/
def to_network (f : encoded_frame) (t : Int) : List network_frame :=
  let pieces := chunkBytes f.data
  mkNetworkFrames f.id t pieces.length 1 pieces

theorem chunkBytesF_ne_nil (fuel : Nat) (d : List Nat) : chunkBytesF fuel d ≠ [] := by
  cases fuel with
  | zero => simp [chunkBytesF]
  | succ fuel =>
    rw [chunkBytesF]
    split <;> simp

theorem chunkBytes_ne_nil (d : List Nat) : chunkBytes d ≠ [] :=
  chunkBytesF_ne_nil d.length d

theorem chunkBytesF_flatten : ∀ (fuel : Nat) (d : List Nat),
    (chunkBytesF fuel d).flatten = d
  | 0, d => by simp [chunkBytesF]
  | fuel + 1, d => by
    rw [chunkBytesF]
    split
    · simp
    · have ih := chunkBytesF_flatten fuel (d.drop binary_chunk_size)
      simp [ih]

theorem chunkBytes_flatten (d : List Nat) : (chunkBytes d).flatten = d :=
  chunkBytesF_flatten d.length d

theorem chunkBytesF_piece_length : ∀ (fuel : Nat) (d : List Nat),
    d.length ≤ fuel + binary_chunk_size →
    ∀ p ∈ chunkBytesF fuel d, p.length ≤ binary_chunk_size
  | 0, d, hf => by
    intro p hp
    simp [chunkBytesF] at hp
    subst hp
    simpa using hf
  | fuel + 1, d, hf => by
    intro p hp
    rw [chunkBytesF] at hp
    split at hp
    · simp at hp
      subst hp
      assumption
    · have ih := chunkBytesF_piece_length fuel (d.drop binary_chunk_size)
        (by simp only [List.length_drop, binary_chunk_size] at *; omega)
      simp at hp
      rcases hp with hp | hp
      · subst hp
        simp [List.length_take]
      · exact ih p hp

theorem chunkBytes_piece_length (d : List Nat) :
    ∀ p ∈ chunkBytes d, p.length ≤ binary_chunk_size :=
  chunkBytesF_piece_length d.length d (by omega)

theorem b64encode_chunkBytesF_flatten : ∀ (fuel : Nat) (d : List Nat),
    ((chunkBytesF fuel d).map b64encode).flatten = b64encode d
  | 0, d => by simp [chunkBytesF]
  | fuel + 1, d => by
    rw [chunkBytesF]
    split
    · simp
    · rename_i hlen
      have ih := b64encode_chunkBytesF_flatten fuel (d.drop binary_chunk_size)
      have htake : (d.take binary_chunk_size).length % 3 = 0 := by
        simp only [List.length_take, binary_chunk_size] at *
        omega
      have happ :=
        b64encode_append (d.take binary_chunk_size) (d.drop binary_chunk_size) htake
      rw [List.take_append_drop] at happ
      simp only [List.map_cons, List.flatten_cons, ih, happ]

theorem b64encode_chunkBytes_flatten (d : List Nat) :
    ((chunkBytes d).map b64encode).flatten = b64encode d :=
  b64encode_chunkBytesF_flatten d.length d

theorem chunkBytes_mem_lt (d : List Nat) (hd : ∀ x ∈ d, x < 256) :
    ∀ p ∈ chunkBytes d, ∀ x ∈ p, x < 256 := by
  intro p hp x hx
  apply hd
  rw [← chunkBytes_flatten d]
  exact List.mem_flatten.mpr ⟨p, hp, hx⟩

theorem mkNetworkFrames_length (id : frame_id) (t : Int) (total : Nat) :
    ∀ (idx : Nat) (ps : List (List Nat)),
    (mkNetworkFrames id t total idx ps).length = ps.length
  | _, [] => rfl
  | idx, _ :: ps => by
    simp only [mkNetworkFrames, List.length_cons,
      mkNetworkFrames_length id t total (idx + 1) ps]

theorem mkNetworkFrames_map_chunk (id : frame_id) (t : Int) (total : Nat) :
    ∀ (idx : Nat) (ps : List (List Nat)),
    (mkNetworkFrames id t total idx ps).map (fun nf => nf.chunk) =
      List.range' idx ps.length
  | _, [] => rfl
  | idx, _ :: ps => by
    simp only [mkNetworkFrames, List.map_cons, List.length_cons, List.range'_succ,
      mkNetworkFrames_map_chunk id t total (idx + 1) ps]

theorem mkNetworkFrames_map_data (id : frame_id) (t : Int) (total : Nat) :
    ∀ (idx : Nat) (ps : List (List Nat)),
    (mkNetworkFrames id t total idx ps).map (fun nf => nf.base64_data) =
      ps.map b64encode
  | _, [] => rfl
  | idx, _ :: ps => by
    simp only [mkNetworkFrames, List.map_cons,
      mkNetworkFrames_map_data id t total (idx + 1) ps]

theorem mkNetworkFrames_mem (id : frame_id) (t : Int) (total : Nat) :
    ∀ (idx : Nat) (ps : List (List Nat)) (nf : network_frame),
    nf ∈ mkNetworkFrames id t total idx ps →
    nf.id = id ∧ nf.t = t ∧ nf.chunks = total ∧
      ∃ p ∈ ps, nf.base64_data = b64encode p
  | _, [], nf => by simp [mkNetworkFrames]
  | idx, p :: ps, nf => by
    intro hmem
    simp only [mkNetworkFrames, List.mem_cons] at hmem
    rcases hmem with hmem | hmem
    · subst hmem
      exact ⟨rfl, rfl, rfl, p, by simp⟩
    · have ih := mkNetworkFrames_mem id t total (idx + 1) ps nf hmem
      rcases ih with ⟨h1, h2, h3, q, hq, hdata⟩
      exact ⟨h1, h2, h3, q, by simp [hq], hdata⟩

/-- C4: for every encoded frame f and timestamp t, to_network returns N ≥ 1
network frames whose chunk fields ascend 1..N; every frame's base64 text
payload is at most 65,000 bytes, its chunks field equals N, and it carries
timestamp t and frame id f.id. -/
theorem to_network_chunking (f : encoded_frame) (t : Int) :
    1 ≤ (to_network f t).length ∧
    (to_network f t).map (fun nf => nf.chunk) = List.range' 1 (to_network f t).length ∧
    ∀ nf ∈ to_network f t,
      nf.base64_data.length ≤ max_payload_size ∧
      nf.chunks = (to_network f t).length ∧ nf.t = t ∧ nf.id = f.id := by
  have hlen : (to_network f t).length = (chunkBytes f.data).length :=
    mkNetworkFrames_length _ _ _ _ _
  refine ⟨?_, ?_, ?_⟩
  · rw [hlen]
    have := chunkBytes_ne_nil f.data
    cases h : chunkBytes f.data with
    | nil => exact absurd h this
    | cons a l => simp
  · rw [hlen]
    exact mkNetworkFrames_map_chunk _ _ _ _ _
  · intro nf hmem
    have h := mkNetworkFrames_mem _ _ _ _ _ _ hmem
    rcases h with ⟨h1, h2, h3, p, hp, hdata⟩
    refine ⟨?_, by rw [h3, hlen], h2, h1⟩
    rw [hdata, b64encode_length]
    have hple := chunkBytes_piece_length f.data p hp
    simp only [binary_chunk_size] at hple
    simp only [max_payload_size]
    omega

/-- Witness for to_network_chunking at a concrete frame. -/
theorem to_network_chunking_witness :
    ((⟨b64encode [7, 8, 9], ⟨0, 3⟩, 5, 1, 1⟩ : network_frame) ∈
        to_network ⟨[7, 8, 9], ⟨0, 3⟩⟩ 5) ∧
    ((⟨b64encode [7, 8, 9], ⟨0, 3⟩, 5, 1, 1⟩ : network_frame).base64_data.length ≤
        max_payload_size ∧
      (⟨b64encode [7, 8, 9], ⟨0, 3⟩, 5, 1, 1⟩ : network_frame).chunks =
        (to_network ⟨[7, 8, 9], ⟨0, 3⟩⟩ 5).length ∧
      (⟨b64encode [7, 8, 9], ⟨0, 3⟩, 5, 1, 1⟩ : network_frame).t = 5 ∧
      (⟨b64encode [7, 8, 9], ⟨0, 3⟩, 5, 1, 1⟩ : network_frame).id = ⟨0, 3⟩) :=
  ⟨by decide, (to_network_chunking ⟨[7, 8, 9], ⟨0, 3⟩⟩ 5).2.2 _ (by decide)⟩

/- ===================== Reassembly (decoder inverse) ===================== -/

/-- Ordering of network frames by their chunk number. -/
def chunkLE (a b : network_frame) : Prop := a.chunk ≤ b.chunk

instance : DecidableRel chunkLE := fun a b => Nat.decLe a.chunk b.chunk

instance : IsTotal network_frame chunkLE := ⟨fun a b => Nat.le_total a.chunk b.chunk⟩

instance : IsTrans network_frame chunkLE := ⟨fun _ _ _ => Nat.le_trans⟩

/-- Sort network frames by ascending chunk number. -/
def sortByChunk (l : List network_frame) : List network_frame :=
  List.insertionSort chunkLE l

/-- Modelled from the spec: the implementation of decode_network_stream is
not among the given sources (src/src/video_streams.h declares it only).
Spec section 4.G: the decoder buffers network frames keyed by id; when all
chunks for an id have arrived, in any order, it concatenates them by
ascending chunk, base64-decodes, and emits one encoded frame.  This
function performs that reassembly for the frames buffered under one id:
it requires chunks 1..N to be present (N taken from the frames' chunks
field) and yields the decoded frame. -/
def reassemble (frames : List network_frame) : Option encoded_frame :=
  match frames with
  | [] => none
  | f0 :: _ =>
      let sorted := sortByChunk frames
      if sorted.map (fun nf => nf.chunk) = List.range' 1 f0.chunks
      then some ⟨b64decode ((sorted.map (fun nf => nf.base64_data)).flatten), f0.id⟩
      else none

/-- Two permuted lists that are both sorted by a Nat key, where the first
has no duplicate keys, are equal. -/
theorem perm_pairwise_key_eq {α : Type} (key : α → Nat) :
    ∀ (l₁ l₂ : List α), List.Perm l₁ l₂ →
    l₁.Pairwise (fun a b => key a ≤ key b) →
    l₂.Pairwise (fun a b => key a ≤ key b) →
    (l₁.map key).Nodup → l₁ = l₂
  | [], l₂, hperm, _, _, _ => hperm.nil_eq
  | x :: xs, [], hperm, _, _, _ => by
    have := hperm.length_eq
    simp at this
  | x :: xs, y :: ys, hperm, h₁, h₂, hnd => by
    obtain ⟨hx1, hp1⟩ := List.pairwise_cons.mp h₁
    obtain ⟨hy2, hp2⟩ := List.pairwise_cons.mp h₂
    have hxy : x = y := by
      by_cases heq : x = y
      · exact heq
      · exfalso
        have hymem : y ∈ x :: xs := hperm.symm.mem_iff.mp (List.mem_cons_self y ys)
        have hyxs : y ∈ xs := by
          rcases List.mem_cons.mp hymem with h | h
          · exact absurd h.symm heq
          · exact h
        have hxmem : x ∈ y :: ys := hperm.mem_iff.mp (List.mem_cons_self x xs)
        have hxys : x ∈ ys := by
          rcases List.mem_cons.mp hxmem with h | h
          · exact absurd h heq
          · exact h
        have hle1 : key x ≤ key y := hx1 y hyxs
        have hle2 : key y ≤ key x := hy2 x hxys
        have hkeq : key x = key y := Nat.le_antisymm hle1 hle2
        have hnd' : (∀ z ∈ xs, ¬ key z = key x) ∧ (xs.map key).Nodup := by
          simpa using hnd
        exact hnd'.1 y hyxs hkeq.symm
    subst hxy
    have htail := hperm.cons_inv
    have hnd' : (∀ z ∈ xs, ¬ key z = key x) ∧ (xs.map key).Nodup := by
      simpa using hnd
    rw [perm_pairwise_key_eq key xs ys htail hp1 hp2 hnd'.2]

/-- The chunk numbers of the frames built by mkNetworkFrames ascend
strictly, so the frame list is sorted by chunk and its chunk keys are
distinct. -/
theorem mkNetworkFrames_chunk_lt (id : frame_id) (t : Int) (total idx : Nat)
    (ps : List (List Nat)) :
    (mkNetworkFrames id t total idx ps).Pairwise (fun a b => a.chunk < b.chunk) := by
  have hmap := mkNetworkFrames_map_chunk id t total idx ps
  have hrange : (List.range' idx ps.length).Pairwise (fun a b => a < b) :=
    List.pairwise_lt_range' idx ps.length
  rw [← hmap] at hrange
  exact List.pairwise_map.mp hrange

/-- C5: feeding all network frames of f.to_network(t), in any arrival
order, to the decoder's reassembly yields exactly one encoded frame whose
bytes equal f.data and whose id equals f.id. -/
theorem to_network_reassemble (f : encoded_frame) (t : Int)
    (arrival : List network_frame)
    (hbytes : ∀ x ∈ f.data, x < 256)
    (hperm : List.Perm arrival (to_network f t)) :
    reassemble arrival = some ⟨f.data, f.id⟩ := by
  have hne : to_network f t ≠ [] := by
    intro h
    have hlen := mkNetworkFrames_length f.id t (chunkBytes f.data).length 1 (chunkBytes f.data)
    rw [show mkNetworkFrames f.id t (chunkBytes f.data).length 1 (chunkBytes f.data) =
        to_network f t from rfl, h] at hlen
    exact chunkBytes_ne_nil f.data (List.length_eq_zero.mp hlen.symm)
  have hlt := mkNetworkFrames_chunk_lt f.id t (chunkBytes f.data).length 1 (chunkBytes f.data)
  have htgt_pw : (to_network f t).Pairwise (fun a b => a.chunk ≤ b.chunk) :=
    hlt.imp fun h => Nat.le_of_lt h
  have htgt_nodup : ((to_network f t).map (fun nf => nf.chunk)).Nodup := by
    rw [show (to_network f t).map (fun nf => nf.chunk) =
        List.range' 1 (chunkBytes f.data).length from
      mkNetworkFrames_map_chunk f.id t (chunkBytes f.data).length 1 (chunkBytes f.data)]
    exact (List.pairwise_lt_range' 1 (chunkBytes f.data).length).imp Nat.ne_of_lt
  have hsperm : List.Perm (to_network f t) (sortByChunk arrival) :=
    ((List.perm_insertionSort chunkLE arrival).trans hperm).symm
  have hsorted : (sortByChunk arrival).Pairwise (fun a b => a.chunk ≤ b.chunk) :=
    List.sorted_insertionSort chunkLE arrival
  have hsort_eq : to_network f t = sortByChunk arrival :=
    perm_pairwise_key_eq (fun nf => nf.chunk) (to_network f t) (sortByChunk arrival)
      hsperm htgt_pw hsorted htgt_nodup
  cases harr : arrival with
  | nil =>
    rw [harr] at hperm
    exact absurd hperm.nil_eq.symm hne
  | cons f0 rest =>
    have hf0 : f0 ∈ to_network f t := by
      rw [harr] at hperm
      exact hperm.mem_iff.mp (List.mem_cons_self f0 rest)
    obtain ⟨hid, ht, hchunks, _⟩ := mkNetworkFrames_mem _ _ _ _ _ _ hf0
    rw [← harr]
    show reassemble arrival = _
    rw [harr]
    simp only [reassemble]
    rw [← harr, ← hsort_eq]
    have hcond : (to_network f t).map (fun nf => nf.chunk) = List.range' 1 f0.chunks := by
      rw [hchunks]
      exact mkNetworkFrames_map_chunk f.id t _ 1 (chunkBytes f.data)
    rw [if_pos hcond]
    have hdata : ((to_network f t).map (fun nf => nf.base64_data)).flatten = b64encode f.data := by
      rw [show (to_network f t).map (fun nf => nf.base64_data) =
          (chunkBytes f.data).map b64encode from
        mkNetworkFrames_map_data f.id t (chunkBytes f.data).length 1 (chunkBytes f.data)]
      exact b64encode_chunkBytes_flatten f.data
    rw [hdata, b64decode_b64encode f.data hbytes, hid]

/-- Witness for to_network_reassemble at a concrete frame, with the frames
arriving exactly as produced. -/
theorem to_network_reassemble_witness :
    (∀ x ∈ ([7, 8, 9] : List Nat), x < 256) ∧
    List.Perm (to_network ⟨[7, 8, 9], ⟨0, 3⟩⟩ 5) (to_network ⟨[7, 8, 9], ⟨0, 3⟩⟩ 5) ∧
    reassemble (to_network ⟨[7, 8, 9], ⟨0, 3⟩⟩ 5) = some ⟨[7, 8, 9], ⟨0, 3⟩⟩ :=
  ⟨by decide, List.Perm.refl _,
    to_network_reassemble ⟨[7, 8, 9], ⟨0, 3⟩⟩ 5 _ (by decide) (List.Perm.refl _)⟩
/- ===================== File source ===================== -/

/-- Embedded from src/src/video_error.cpp: the video error kinds. -/
inductive video_error
  | StreamInitializationError
  | FrameGenerationError
  | AsioError
  | EndOfStreamError
  | FrameNotReadyError
deriving DecidableEq, Repr

/-- The fields of a libav packet that file_source_impl::generate reads
(src/unnamed/part_002): payload bytes, byte position in the file, stream
index, presentation timestamp and the key-frame flag. -/
structure AVPacket where
  data : List Nat
  pos : Int
  stream_index : Int
  pts : Int
  flags_key : Bool
deriving DecidableEq, Repr

/-- A model of the opened media file as the file source sees it through
libav: whether init() succeeds, the loop configuration flag, the packets
av_read_frame returns in order, whether the read after the last packet
fails with a non-EOF error (otherwise it reports EOF), the chosen video
stream index, the decoder name and extradata, and the stream time base.
When loop is set, reaching EOF seeks back to the start of the file, so
reads continue from the first packet again. -/
structure FileModel where
  initOk : Bool
  loop : Bool
  packets : List AVPacket
  readError : Bool
  streamIdx : Int
  codecName : String
  extradata : List Nat
  timeBaseNum : Int
  timeBaseDen : Int
deriving DecidableEq, Repr

/-- Embedded from src/unnamed/part_002: the encoded_packet variant flowing
out of the file source; a frame carries data, id, timestamp and key-frame
flag as built in file_source_impl::generate. -/
inductive encoded_packet
  | metadata (codec_name : String) (codec_data : List Nat)
  | frame (data : List Nat) (id : frame_id) (timestamp : Int) (key_frame : Bool)
deriving DecidableEq, Repr

/-- The per-subscription generator state of file_source_impl: whether the
format context is open (init has run), whether metadata was sent, the
_last_pos counter, and the packets not yet read. -/
structure GenState where
  fmtOpen : Bool
  metadataSent : Bool
  lastPos : Int
  remaining : List AVPacket
deriving DecidableEq, Repr

/-- Outcome of one generate call: suspended waiting for more demand, or a
terminal event. -/
inductive GenOutcome
  | suspended (st : GenState)
  | completed
  | errored (e : video_error)
deriving DecidableEq, Repr

/-- Outcome of one pass of the read loop over the packets not yet read:
suspended (demand exhausted), completed (EOF, not configured to loop), an
error, or - when configured to loop - EOF reached with demand left over,
to be continued from the start of the file after the seek. -/
inductive ReadStep
  | suspended (st : GenState)
  | completed
  | errored (e : video_error)
  | eofLoop (count : Nat) (lastPos : Int)
deriving DecidableEq, Repr

/-- Timestamp computed in generate: 1000 * pkt.pts * time_base.num /
time_base.den with C-style truncating division. -/
def frameTimestamp (file : FileModel) (p : AVPacket) : Int :=
  Int.tdiv (1000 * p.pts * file.timeBaseNum) file.timeBaseDen

/-- One pass of the read-and-emit loop of file_source_impl::generate over
the packets not yet read: while demand remains, read a packet; at end of
packets a failing read errors (FrameGenerationError), EOF completes when
not configured to loop, and with loop configured it reports eofLoop so
the caller performs the av_seek_frame back to the start and continues; a
packet of another stream is skipped; a video packet is emitted as a frame
with id [_last_pos, pkt.pos] and _last_pos then set to pkt.pos + 1. -/
def readPass (file : FileModel) : Nat → Int → List AVPacket →
    List encoded_packet × ReadStep
  | 0, lastPos, remaining => ([], ReadStep.suspended ⟨true, true, lastPos, remaining⟩)
  | count + 1, lastPos, [] =>
      if file.readError then ([], ReadStep.errored video_error.FrameGenerationError)
      else if file.loop then ([], ReadStep.eofLoop (count + 1) lastPos)
      else ([], ReadStep.completed)
  | count + 1, lastPos, p :: rest =>
      if p.stream_index = file.streamIdx then
        ((encoded_packet.frame p.data ⟨lastPos, p.pos⟩ (frameTimestamp file p)
            p.flags_key) :: (readPass file count (p.pos + 1) rest).1,
          (readPass file count (p.pos + 1) rest).2)
      else readPass file (count + 1) lastPos rest

/-- The read-and-emit loop of file_source_impl::generate including the
if(_loop) branch of part_002: on EOF with loop configured, the file is
rewound to its start (the packets to read are reset; _last_pos and
_metadata_sent are not) and reading continues.  In the C++ a looping
source with no matching packets spins forever inside one generate call;
the fuel argument bounds how many times the model follows the seek
branch, keeping the definition total and kernel-computable.  When fuel
runs out the model suspends, exactly as it does under exhausted demand;
this is sound for the safety properties proved below, and every finite
behaviour of the real loop is reached for sufficient fuel.  The claims'
theorems quantify over all fuel values. -/
def readFrames (file : FileModel) : Nat → Nat → Int → List AVPacket →
    List encoded_packet × GenOutcome
  | fuel, count, lastPos, remaining =>
      match (readPass file count lastPos remaining).2 with
      | ReadStep.suspended st =>
          ((readPass file count lastPos remaining).1, GenOutcome.suspended st)
      | ReadStep.completed =>
          ((readPass file count lastPos remaining).1, GenOutcome.completed)
      | ReadStep.errored e =>
          ((readPass file count lastPos remaining).1, GenOutcome.errored e)
      | ReadStep.eofLoop count2 lastPos2 =>
          match fuel with
          | 0 => ((readPass file count lastPos remaining).1,
              GenOutcome.suspended ⟨true, true, lastPos2, []⟩)
          | fuel2 + 1 =>
              ((readPass file count lastPos remaining).1 ++
                  (readFrames file fuel2 count2 lastPos2 file.packets).1,
                (readFrames file fuel2 count2 lastPos2 file.packets).2)

/-- Embedded from src/unnamed/part_002: file_source_impl::generate.  On
the first call init runs; failure errors with StreamInitializationError.
The while loop sends metadata first (counting it against the demand) and
then reads frames.  In the C++ the metadata branch can only fire on the
first loop iteration because _metadata_sent is set immediately, so it is
lifted out of the loop here. -/
def generate (file : FileModel) (fuel count : Nat) (st : GenState) :
    List encoded_packet × GenOutcome :=
  if ¬ st.fmtOpen ∧ ¬ file.initOk then
    ([], GenOutcome.errored video_error.StreamInitializationError)
  else if st.metadataSent then readFrames file fuel count st.lastPos st.remaining
  else
    match count with
    | 0 => ([], GenOutcome.suspended ⟨true, st.metadataSent, st.lastPos, st.remaining⟩)
    | count + 1 =>
        (encoded_packet.metadata file.codecName file.extradata ::
            (readFrames file fuel count st.lastPos st.remaining).1,
          (readFrames file fuel count st.lastPos st.remaining).2)

/-- Terminal event of a subscription. -/
inductive StreamTerminal
  | complete
  | errored (e : video_error)
deriving DecidableEq, Repr

/-- The state a fresh subscription starts from. -/
def initState (file : FileModel) : GenState := ⟨false, false, 0, file.packets⟩

/-- Drive the stateful generator with a list of demand grants, threading
the state, and collect everything emitted plus the terminal event if one
occurred.  The fuel bound for the seek branch is shared by the calls; the
theorems below hold for every fuel value. -/
def runCalls (file : FileModel) (fuel : Nat) : List Nat → GenState →
    List encoded_packet × Option StreamTerminal
  | [], _ => ([], none)
  | n :: ns, st =>
      match (generate file fuel n st).2 with
      | GenOutcome.suspended st2 =>
          ((generate file fuel n st).1 ++ (runCalls file fuel ns st2).1,
            (runCalls file fuel ns st2).2)
      | GenOutcome.completed => ((generate file fuel n st).1, some StreamTerminal.complete)
      | GenOutcome.errored e =>
          ((generate file fuel n st).1, some (StreamTerminal.errored e))

/-- One subscription to the file source: run the generator from the fresh
state under the given demand schedule. -/
def runSource (file : FileModel) (fuel : Nat) (demands : List Nat) :
    List encoded_packet × Option StreamTerminal :=
  runCalls file fuel demands (initState file)

/-- The frame ids of the emitted packets, in emission order. -/
def frameIds : List encoded_packet → List frame_id
  | [] => []
  | encoded_packet.metadata _ _ :: rest => frameIds rest
  | encoded_packet.frame _ id _ _ :: rest => id :: frameIds rest

/-- Number of metadata packets in a list. -/
def metaCount : List encoded_packet → Nat
  | [] => 0
  | encoded_packet.metadata _ _ :: rest => metaCount rest + 1
  | encoded_packet.frame _ _ _ _ :: rest => metaCount rest

/-- Successive-frame property: each frame id starts right after the
previous one ends. -/
def idChain : List frame_id → Prop
  | a :: b :: rest => b.i1 = a.i2 + 1 ∧ idChain (b :: rest)
  | _ => True

/-- Frame ids chained from a given starting point: the first id starts at
the bound, each next id starts right after the previous ends. -/
def idChainFrom (bound : Int) : List frame_id → Prop
  | [] => True
  | id :: rest => id.i1 = bound ∧ idChainFrom (id.i2 + 1) rest

/-- Positions strictly beyond a moving bound: each position exceeds the
bound, the next bound is that position plus one (the new _last_pos). -/
def gapOk : Int → List Int → Bool
  | _, [] => true
  | bound, p :: rest => decide (bound < p) && gapOk (p + 1) rest

/-- Byte positions of the packets belonging to the chosen video stream. -/
def streamPositions (file : FileModel) (l : List AVPacket) : List Int :=
  (l.filter (fun p => decide (p.stream_index = file.streamIdx))).map (fun p => p.pos)

/-- Where the frame id chain ends: the _last_pos value after emitting the
given ids starting from the given _last_pos. -/
def chainEnd : Int → List frame_id → Int
  | bound, [] => bound
  | _, id :: rest => chainEnd (id.i2 + 1) rest

theorem frameIds_append : ∀ l₁ l₂ : List encoded_packet,
    frameIds (l₁ ++ l₂) = frameIds l₁ ++ frameIds l₂
  | [], _ => rfl
  | encoded_packet.metadata _ _ :: rest, l₂ => by
    simp only [List.cons_append, frameIds, List.append_eq, frameIds_append rest l₂]
  | encoded_packet.frame _ _ _ _ :: rest, l₂ => by
    simp only [List.cons_append, frameIds, List.append_eq, frameIds_append rest l₂]

theorem metaCount_append : ∀ l₁ l₂ : List encoded_packet,
    metaCount (l₁ ++ l₂) = metaCount l₁ + metaCount l₂
  | [], _ => by simp [metaCount]
  | encoded_packet.metadata _ _ :: rest, l₂ => by
    simp only [List.cons_append, metaCount, List.append_eq, metaCount_append rest l₂]
    omega
  | encoded_packet.frame _ _ _ _ :: rest, l₂ => by
    simp only [List.cons_append, metaCount, List.append_eq, metaCount_append rest l₂]

theorem idChainFrom_append (ids₂ : List frame_id) : ∀ (ids₁ : List frame_id) (bound : Int),
    idChainFrom bound ids₁ → idChainFrom (chainEnd bound ids₁) ids₂ →
    idChainFrom bound (ids₁ ++ ids₂)
  | [], bound, _, h₂ => h₂
  | id :: rest, bound, h₁, h₂ => by
    obtain ⟨ha, hrest⟩ := h₁
    exact ⟨ha, idChainFrom_append ids₂ rest (id.i2 + 1) hrest h₂⟩

theorem idChainFrom_idChain : ∀ (ids : List frame_id) (bound : Int),
    idChainFrom bound ids → idChain ids
  | [], _, _ => trivial
  | [_], _, _ => trivial
  | a :: b :: rest, bound, h => by
    obtain ⟨_, hb, hrest⟩ := h
    exact ⟨hb, idChainFrom_idChain (b :: rest) (a.i2 + 1) ⟨hb, hrest⟩⟩

theorem chainEnd_append : ∀ (ids₁ ids₂ : List frame_id) (bound : Int),
    chainEnd bound (ids₁ ++ ids₂) = chainEnd (chainEnd bound ids₁) ids₂
  | [], _, _ => rfl
  | id :: rest, ids₂, bound => by
    simp only [List.cons_append, chainEnd, List.append_eq,
      chainEnd_append rest ids₂ (id.i2 + 1)]

theorem readPass_len (file : FileModel) : ∀ (count : Nat) (lastPos : Int)
    (remaining : List AVPacket),
    (readPass file count lastPos remaining).1.length ≤ count
  | 0, _, _ => by simp [readPass]
  | _ + 1, _, [] => by
    simp only [readPass]
    split
    · simp
    · split <;> simp
  | count + 1, lastPos, p :: rest => by
    simp only [readPass]
    split
    · have ih := readPass_len file count (p.pos + 1) rest
      simpa using ih
    · exact readPass_len file (count + 1) lastPos rest

theorem readPass_meta (file : FileModel) : ∀ (count : Nat) (lastPos : Int)
    (remaining : List AVPacket),
    metaCount (readPass file count lastPos remaining).1 = 0
  | 0, _, _ => by simp [readPass, metaCount]
  | _ + 1, _, [] => by
    simp only [readPass]
    split
    · simp [metaCount]
    · split <;> simp [metaCount]
  | count + 1, lastPos, p :: rest => by
    simp only [readPass]
    split
    · have ih := readPass_meta file count (p.pos + 1) rest
      simpa [metaCount] using ih
    · exact readPass_meta file (count + 1) lastPos rest

theorem readPass_chain (file : FileModel) : ∀ (count : Nat) (lastPos : Int)
    (remaining : List AVPacket),
    idChainFrom lastPos (frameIds (readPass file count lastPos remaining).1)
  | 0, _, _ => by simp [readPass, frameIds, idChainFrom]
  | _ + 1, _, [] => by
    simp only [readPass]
    split
    · simp [frameIds, idChainFrom]
    · split <;> simp [frameIds, idChainFrom]
  | count + 1, lastPos, p :: rest => by
    simp only [readPass]
    split
    · have ih := readPass_chain file count (p.pos + 1) rest
      exact ⟨rfl, ih⟩
    · exact readPass_chain file (count + 1) lastPos rest

theorem readPass_susp (file : FileModel) : ∀ (count : Nat) (lastPos : Int)
    (remaining : List AVPacket) (st2 : GenState),
    (readPass file count lastPos remaining).2 = ReadStep.suspended st2 →
    st2.fmtOpen = true ∧ st2.metadataSent = true ∧
      st2.lastPos = chainEnd lastPos (frameIds (readPass file count lastPos remaining).1)
  | 0, lastPos, remaining, st2 => by
    intro h
    simp only [readPass, ReadStep.suspended.injEq] at h
    subst h
    simp [readPass, frameIds, chainEnd]
  | _ + 1, _, [], st2 => by
    intro h
    simp only [readPass] at h
    split at h
    · simp at h
    · split at h <;> simp at h
  | count + 1, lastPos, p :: rest, st2 => by
    intro h
    by_cases hidx : p.stream_index = file.streamIdx
    · simp only [readPass, if_pos hidx] at h ⊢
      have ih := readPass_susp file count (p.pos + 1) rest st2 h
      simp only [frameIds, chainEnd]
      exact ih
    · simp only [readPass, if_neg hidx] at h ⊢
      exact readPass_susp file (count + 1) lastPos rest st2 h

theorem readPass_eof (file : FileModel) : ∀ (count : Nat) (lastPos : Int)
    (remaining : List AVPacket) (count2 : Nat) (lastPos2 : Int),
    (readPass file count lastPos remaining).2 = ReadStep.eofLoop count2 lastPos2 →
    lastPos2 = chainEnd lastPos (frameIds (readPass file count lastPos remaining).1) ∧
    (readPass file count lastPos remaining).1.length + count2 ≤ count ∧
    file.loop = true
  | 0, _, _, _, _ => by
    intro h
    simp [readPass] at h
  | count + 1, lastPos, [], count2, lastPos2 => by
    intro h
    simp only [readPass] at h ⊢
    by_cases hre : file.readError = true
    · rw [if_pos hre] at h
      simp at h
    · rw [if_neg hre] at h ⊢
      by_cases hlp : file.loop = true
      · rw [if_pos hlp] at h ⊢
        simp only [ReadStep.eofLoop.injEq] at h
        refine ⟨?_, ?_, hlp⟩
        · simp [frameIds, chainEnd, h.2.symm]
        · simp [h.1.symm]
      · rw [if_neg hlp] at h
        simp at h
  | count + 1, lastPos, p :: rest, count2, lastPos2 => by
    intro h
    by_cases hidx : p.stream_index = file.streamIdx
    · simp only [readPass, if_pos hidx] at h ⊢
      have ih := readPass_eof file count (p.pos + 1) rest count2 lastPos2 h
      refine ⟨?_, ?_, ih.2.2⟩
      · simp only [frameIds, chainEnd]
        exact ih.1
      · have h21 := ih.2.1
        simp only [List.length_cons]
        omega
    · simp only [readPass, if_neg hidx] at h ⊢
      exact readPass_eof file (count + 1) lastPos rest count2 lastPos2 h

theorem readPass_noloop (file : FileModel) (hloop : file.loop = false)
    (count : Nat) (lastPos : Int) (remaining : List AVPacket)
    (count2 : Nat) (lastPos2 : Int) :
    (readPass file count lastPos remaining).2 ≠ ReadStep.eofLoop count2 lastPos2 := by
  intro h
  have hl := (readPass_eof file count lastPos remaining count2 lastPos2 h).2.2
  rw [hloop] at hl
  simp at hl

theorem readPass_lt (file : FileModel) : ∀ (count : Nat) (lastPos : Int)
    (remaining : List AVPacket),
    gapOk lastPos (streamPositions file remaining) = true →
    (∀ id ∈ frameIds (readPass file count lastPos remaining).1, id.i1 < id.i2) ∧
    (∀ st2, (readPass file count lastPos remaining).2 = ReadStep.suspended st2 →
      gapOk st2.lastPos (streamPositions file st2.remaining) = true)
  | 0, lastPos, remaining, hgap => by
    refine ⟨by simp [readPass, frameIds], ?_⟩
    intro st2 h
    simp only [readPass, ReadStep.suspended.injEq] at h
    subst h
    exact hgap
  | _ + 1, _, [], hgap => by
    constructor
    · simp only [readPass]
      split
      · simp [frameIds]
      · split <;> simp [frameIds]
    · intro st2 h
      simp only [readPass] at h
      split at h
      · simp at h
      · split at h <;> simp at h
  | count + 1, lastPos, p :: rest, hgap => by
    by_cases hidx : p.stream_index = file.streamIdx
    · have hpos : streamPositions file (p :: rest) =
          p.pos :: streamPositions file rest := by
        simp [streamPositions, List.filter_cons, hidx]
      rw [hpos] at hgap
      simp only [gapOk, Bool.and_eq_true, decide_eq_true_eq] at hgap
      have ih := readPass_lt file count (p.pos + 1) rest hgap.2
      constructor
      · intro id hid
        simp only [readPass, if_pos hidx, frameIds, List.mem_cons] at hid
        rcases hid with hid | hid
        · subst hid
          exact hgap.1
        · exact ih.1 id hid
      · intro st2 h
        simp only [readPass, if_pos hidx] at h
        exact ih.2 st2 h
    · have hpos : streamPositions file (p :: rest) = streamPositions file rest := by
        simp [streamPositions, List.filter_cons, hidx]
      rw [hpos] at hgap
      have ih := readPass_lt file (count + 1) lastPos rest hgap
      constructor
      · intro id hid
        simp only [readPass, if_neg hidx] at hid
        exact ih.1 id hid
      · intro st2 h
        simp only [readPass, if_neg hidx] at h
        exact ih.2 st2 h

theorem readPass_no_error (file : FileModel) (hread : file.readError = false) :
    ∀ (count : Nat) (lastPos : Int) (remaining : List AVPacket) (e : video_error),
    (readPass file count lastPos remaining).2 ≠ ReadStep.errored e
  | 0, _, _, _ => by simp [readPass]
  | _ + 1, _, [], e => by
    simp only [readPass, hread]
    simp only [Bool.false_eq_true, if_false]
    split <;> simp
  | count + 1, lastPos, p :: rest, e => by
    by_cases hidx : p.stream_index = file.streamIdx
    · simp only [readPass, if_pos hidx]
      exact readPass_no_error file hread count (p.pos + 1) rest e
    · simp only [readPass, if_neg hidx]
      exact readPass_no_error file hread (count + 1) lastPos rest e

theorem readFrames_eq_susp (file : FileModel) (fuel count : Nat) (lastPos : Int)
    (remaining : List AVPacket) (st : GenState)
    (h : (readPass file count lastPos remaining).2 = ReadStep.suspended st) :
    readFrames file fuel count lastPos remaining =
      ((readPass file count lastPos remaining).1, GenOutcome.suspended st) := by
  rw [readFrames, h]

theorem readFrames_eq_completed (file : FileModel) (fuel count : Nat) (lastPos : Int)
    (remaining : List AVPacket)
    (h : (readPass file count lastPos remaining).2 = ReadStep.completed) :
    readFrames file fuel count lastPos remaining =
      ((readPass file count lastPos remaining).1, GenOutcome.completed) := by
  rw [readFrames, h]

theorem readFrames_eq_errored (file : FileModel) (fuel count : Nat) (lastPos : Int)
    (remaining : List AVPacket) (e : video_error)
    (h : (readPass file count lastPos remaining).2 = ReadStep.errored e) :
    readFrames file fuel count lastPos remaining =
      ((readPass file count lastPos remaining).1, GenOutcome.errored e) := by
  rw [readFrames, h]

theorem readFrames_eq_eof_zero (file : FileModel) (count : Nat) (lastPos : Int)
    (remaining : List AVPacket) (count2 : Nat) (lastPos2 : Int)
    (h : (readPass file count lastPos remaining).2 = ReadStep.eofLoop count2 lastPos2) :
    readFrames file 0 count lastPos remaining =
      ((readPass file count lastPos remaining).1,
        GenOutcome.suspended ⟨true, true, lastPos2, []⟩) := by
  rw [readFrames, h]

theorem readFrames_eq_eof_succ (file : FileModel) (fuel2 count : Nat) (lastPos : Int)
    (remaining : List AVPacket) (count2 : Nat) (lastPos2 : Int)
    (h : (readPass file count lastPos remaining).2 = ReadStep.eofLoop count2 lastPos2) :
    readFrames file (fuel2 + 1) count lastPos remaining =
      ((readPass file count lastPos remaining).1 ++
          (readFrames file fuel2 count2 lastPos2 file.packets).1,
        (readFrames file fuel2 count2 lastPos2 file.packets).2) := by
  rw [readFrames, h]

theorem readFrames_len (file : FileModel) : ∀ (fuel count : Nat) (lastPos : Int)
    (remaining : List AVPacket),
    (readFrames file fuel count lastPos remaining).1.length ≤ count
  | fuel, count, lastPos, remaining => by
    cases hstep : (readPass file count lastPos remaining).2 with
    | suspended st =>
      rw [readFrames_eq_susp file fuel count lastPos remaining st hstep]
      exact readPass_len file count lastPos remaining
    | completed =>
      rw [readFrames_eq_completed file fuel count lastPos remaining hstep]
      exact readPass_len file count lastPos remaining
    | errored e =>
      rw [readFrames_eq_errored file fuel count lastPos remaining e hstep]
      exact readPass_len file count lastPos remaining
    | eofLoop count2 lastPos2 =>
      have he := readPass_eof file count lastPos remaining count2 lastPos2 hstep
      have h21 := he.2.1
      cases fuel with
      | zero =>
        rw [readFrames_eq_eof_zero file count lastPos remaining count2 lastPos2 hstep]
        exact readPass_len file count lastPos remaining
      | succ fuel2 =>
        have ih := readFrames_len file fuel2 count2 lastPos2 file.packets
        rw [readFrames_eq_eof_succ file fuel2 count lastPos remaining count2 lastPos2 hstep]
        dsimp only
        simp only [List.length_append]
        omega

theorem readFrames_meta (file : FileModel) : ∀ (fuel count : Nat) (lastPos : Int)
    (remaining : List AVPacket),
    metaCount (readFrames file fuel count lastPos remaining).1 = 0
  | fuel, count, lastPos, remaining => by
    cases hstep : (readPass file count lastPos remaining).2 with
    | suspended st =>
      rw [readFrames_eq_susp file fuel count lastPos remaining st hstep]
      exact readPass_meta file count lastPos remaining
    | completed =>
      rw [readFrames_eq_completed file fuel count lastPos remaining hstep]
      exact readPass_meta file count lastPos remaining
    | errored e =>
      rw [readFrames_eq_errored file fuel count lastPos remaining e hstep]
      exact readPass_meta file count lastPos remaining
    | eofLoop count2 lastPos2 =>
      cases fuel with
      | zero =>
        rw [readFrames_eq_eof_zero file count lastPos remaining count2 lastPos2 hstep]
        exact readPass_meta file count lastPos remaining
      | succ fuel2 =>
        have ih := readFrames_meta file fuel2 count2 lastPos2 file.packets
        rw [readFrames_eq_eof_succ file fuel2 count lastPos remaining count2 lastPos2 hstep]
        dsimp only
        rw [metaCount_append, readPass_meta file count lastPos remaining, ih]

theorem readFrames_chain (file : FileModel) : ∀ (fuel count : Nat) (lastPos : Int)
    (remaining : List AVPacket),
    idChainFrom lastPos (frameIds (readFrames file fuel count lastPos remaining).1)
  | fuel, count, lastPos, remaining => by
    cases hstep : (readPass file count lastPos remaining).2 with
    | suspended st =>
      rw [readFrames_eq_susp file fuel count lastPos remaining st hstep]
      exact readPass_chain file count lastPos remaining
    | completed =>
      rw [readFrames_eq_completed file fuel count lastPos remaining hstep]
      exact readPass_chain file count lastPos remaining
    | errored e =>
      rw [readFrames_eq_errored file fuel count lastPos remaining e hstep]
      exact readPass_chain file count lastPos remaining
    | eofLoop count2 lastPos2 =>
      have he := readPass_eof file count lastPos remaining count2 lastPos2 hstep
      cases fuel with
      | zero =>
        rw [readFrames_eq_eof_zero file count lastPos remaining count2 lastPos2 hstep]
        exact readPass_chain file count lastPos remaining
      | succ fuel2 =>
        have ih := readFrames_chain file fuel2 count2 lastPos2 file.packets
        rw [readFrames_eq_eof_succ file fuel2 count lastPos remaining count2 lastPos2 hstep]
        dsimp only
        rw [frameIds_append]
        exact idChainFrom_append _ _ _ (readPass_chain file count lastPos remaining)
          (by rw [← he.1]; exact ih)

theorem readFrames_susp (file : FileModel) : ∀ (fuel count : Nat) (lastPos : Int)
    (remaining : List AVPacket) (st2 : GenState),
    (readFrames file fuel count lastPos remaining).2 = GenOutcome.suspended st2 →
    st2.fmtOpen = true ∧ st2.metadataSent = true ∧
      st2.lastPos =
        chainEnd lastPos (frameIds (readFrames file fuel count lastPos remaining).1)
  | fuel, count, lastPos, remaining, st2 => by
    intro h
    cases hstep : (readPass file count lastPos remaining).2 with
    | suspended st =>
      rw [readFrames_eq_susp file fuel count lastPos remaining st hstep] at h ⊢
      have h2 : GenOutcome.suspended st = GenOutcome.suspended st2 := h
      simp only [GenOutcome.suspended.injEq] at h2
      subst h2
      exact readPass_susp file count lastPos remaining st hstep
    | completed =>
      rw [readFrames_eq_completed file fuel count lastPos remaining hstep] at h
      simp at h
    | errored e =>
      rw [readFrames_eq_errored file fuel count lastPos remaining e hstep] at h
      simp at h
    | eofLoop count2 lastPos2 =>
      have he := readPass_eof file count lastPos remaining count2 lastPos2 hstep
      cases fuel with
      | zero =>
        rw [readFrames_eq_eof_zero file count lastPos remaining count2 lastPos2 hstep] at h ⊢
        have h2 : GenOutcome.suspended (⟨true, true, lastPos2, []⟩ : GenState) =
            GenOutcome.suspended st2 := h
        simp only [GenOutcome.suspended.injEq] at h2
        subst h2
        exact ⟨rfl, rfl, he.1⟩
      | succ fuel2 =>
        rw [readFrames_eq_eof_succ file fuel2 count lastPos remaining count2 lastPos2 hstep]
          at h ⊢
        have h2 : (readFrames file fuel2 count2 lastPos2 file.packets).2 =
            GenOutcome.suspended st2 := h
        have ih := readFrames_susp file fuel2 count2 lastPos2 file.packets st2 h2
        refine ⟨ih.1, ih.2.1, ?_⟩
        show st2.lastPos = chainEnd lastPos
          (frameIds ((readPass file count lastPos remaining).1 ++
            (readFrames file fuel2 count2 lastPos2 file.packets).1))
        rw [frameIds_append, chainEnd_append, ← he.1]
        exact ih.2.2

theorem readFrames_lt (file : FileModel) (hloop : file.loop = false)
    (fuel count : Nat) (lastPos : Int) (remaining : List AVPacket)
    (hgap : gapOk lastPos (streamPositions file remaining) = true) :
    (∀ id ∈ frameIds (readFrames file fuel count lastPos remaining).1, id.i1 < id.i2) ∧
    (∀ st2, (readFrames file fuel count lastPos remaining).2 = GenOutcome.suspended st2 →
      gapOk st2.lastPos (streamPositions file st2.remaining) = true) := by
  cases hstep : (readPass file count lastPos remaining).2 with
  | suspended st =>
    rw [readFrames_eq_susp file fuel count lastPos remaining st hstep]
    refine ⟨(readPass_lt file count lastPos remaining hgap).1, ?_⟩
    intro st2 h
    have h2 : GenOutcome.suspended st = GenOutcome.suspended st2 := h
    simp only [GenOutcome.suspended.injEq] at h2
    subst h2
    exact (readPass_lt file count lastPos remaining hgap).2 st hstep
  | completed =>
    rw [readFrames_eq_completed file fuel count lastPos remaining hstep]
    refine ⟨(readPass_lt file count lastPos remaining hgap).1, ?_⟩
    intro st2 h
    simp at h
  | errored e =>
    rw [readFrames_eq_errored file fuel count lastPos remaining e hstep]
    refine ⟨(readPass_lt file count lastPos remaining hgap).1, ?_⟩
    intro st2 h
    simp at h
  | eofLoop count2 lastPos2 =>
    exact absurd hstep (readPass_noloop file hloop count lastPos remaining count2 lastPos2)

theorem readFrames_no_error (file : FileModel) (hread : file.readError = false) :
    ∀ (fuel count : Nat) (lastPos : Int) (remaining : List AVPacket) (e : video_error),
    (readFrames file fuel count lastPos remaining).2 ≠ GenOutcome.errored e
  | fuel, count, lastPos, remaining, e => by
    cases hstep : (readPass file count lastPos remaining).2 with
    | suspended st =>
      rw [readFrames_eq_susp file fuel count lastPos remaining st hstep]
      simp
    | completed =>
      rw [readFrames_eq_completed file fuel count lastPos remaining hstep]
      simp
    | errored e2 =>
      exact absurd hstep (readPass_no_error file hread count lastPos remaining e2)
    | eofLoop count2 lastPos2 =>
      cases fuel with
      | zero =>
        rw [readFrames_eq_eof_zero file count lastPos remaining count2 lastPos2 hstep]
        simp
      | succ fuel2 =>
        rw [readFrames_eq_eof_succ file fuel2 count lastPos remaining count2 lastPos2 hstep]
        exact readFrames_no_error file hread fuel2 count2 lastPos2 file.packets e

theorem generate_eq_init_fail (file : FileModel) (fuel count : Nat) (st : GenState)
    (hA : ¬ st.fmtOpen = true ∧ ¬ file.initOk = true) :
    generate file fuel count st =
      ([], GenOutcome.errored video_error.StreamInitializationError) := by
  unfold generate
  rw [if_pos hA]

theorem generate_eq_sent (file : FileModel) (fuel count : Nat) (st : GenState)
    (hA : ¬ (¬ st.fmtOpen = true ∧ ¬ file.initOk = true))
    (hs : st.metadataSent = true) :
    generate file fuel count st = readFrames file fuel count st.lastPos st.remaining := by
  unfold generate
  rw [if_neg hA, if_pos hs]

theorem generate_eq_unsent_zero (file : FileModel) (fuel : Nat) (st : GenState)
    (hA : ¬ (¬ st.fmtOpen = true ∧ ¬ file.initOk = true))
    (hs : st.metadataSent = false) :
    generate file fuel 0 st =
      ([], GenOutcome.suspended ⟨true, st.metadataSent, st.lastPos, st.remaining⟩) := by
  unfold generate
  rw [if_neg hA, if_neg (by simp [hs])]

theorem generate_eq_unsent_succ (file : FileModel) (fuel n : Nat) (st : GenState)
    (hA : ¬ (¬ st.fmtOpen = true ∧ ¬ file.initOk = true))
    (hs : st.metadataSent = false) :
    generate file fuel (n + 1) st =
      (encoded_packet.metadata file.codecName file.extradata ::
          (readFrames file fuel n st.lastPos st.remaining).1,
        (readFrames file fuel n st.lastPos st.remaining).2) := by
  unfold generate
  rw [if_neg hA, if_neg (by simp [hs])]

theorem generate_len (file : FileModel) (fuel count : Nat) (st : GenState) :
    (generate file fuel count st).1.length ≤ count := by
  by_cases hA : ¬ st.fmtOpen = true ∧ ¬ file.initOk = true
  · rw [generate_eq_init_fail file fuel count st hA]
    simp
  · cases hs : st.metadataSent with
    | true => rw [generate_eq_sent file fuel count st hA hs]
              exact readFrames_len file fuel count st.lastPos st.remaining
    | false =>
      cases count with
      | zero => rw [generate_eq_unsent_zero file fuel st hA hs]
                simp
      | succ n =>
        rw [generate_eq_unsent_succ file fuel n st hA hs]
        simpa using readFrames_len file fuel n st.lastPos st.remaining

theorem generate_chain (file : FileModel) (fuel count : Nat) (st : GenState) :
    idChainFrom st.lastPos (frameIds (generate file fuel count st).1) := by
  by_cases hA : ¬ st.fmtOpen = true ∧ ¬ file.initOk = true
  · rw [generate_eq_init_fail file fuel count st hA]
    simp [frameIds, idChainFrom]
  · cases hs : st.metadataSent with
    | true => rw [generate_eq_sent file fuel count st hA hs]
              exact readFrames_chain file fuel count st.lastPos st.remaining
    | false =>
      cases count with
      | zero => rw [generate_eq_unsent_zero file fuel st hA hs]
                simp [frameIds, idChainFrom]
      | succ n =>
        rw [generate_eq_unsent_succ file fuel n st hA hs]
        simpa [frameIds] using readFrames_chain file fuel n st.lastPos st.remaining

theorem generate_meta_sent (file : FileModel) (fuel count : Nat) (st : GenState)
    (hsent : st.metadataSent = true) :
    metaCount (generate file fuel count st).1 = 0 := by
  by_cases hA : ¬ st.fmtOpen = true ∧ ¬ file.initOk = true
  · rw [generate_eq_init_fail file fuel count st hA]
    simp [metaCount]
  · rw [generate_eq_sent file fuel count st hA hsent]
    exact readFrames_meta file fuel count st.lastPos st.remaining

theorem generate_susp (file : FileModel) (fuel count : Nat) (st st2 : GenState)
    (h : (generate file fuel count st).2 = GenOutcome.suspended st2) :
    st2.lastPos = chainEnd st.lastPos (frameIds (generate file fuel count st).1) ∧
    (st.metadataSent = true → st2.metadataSent = true) ∧
    (file.loop = false →
      gapOk st.lastPos (streamPositions file st.remaining) = true →
      gapOk st2.lastPos (streamPositions file st2.remaining) = true) := by
  by_cases hA : ¬ st.fmtOpen = true ∧ ¬ file.initOk = true
  · rw [generate_eq_init_fail file fuel count st hA] at h
    simp at h
  · cases hs : st.metadataSent with
    | true =>
      rw [generate_eq_sent file fuel count st hA hs] at h ⊢
      refine ⟨(readFrames_susp file fuel count st.lastPos st.remaining st2 h).2.2, ?_, ?_⟩
      · intro
        exact (readFrames_susp file fuel count st.lastPos st.remaining st2 h).2.1
      · intro hloop hgap
        exact (readFrames_lt file hloop fuel count st.lastPos st.remaining hgap).2 st2 h
    | false =>
      cases count with
      | zero =>
        rw [generate_eq_unsent_zero file fuel st hA hs] at h ⊢
        simp only [GenOutcome.suspended.injEq] at h
        subst h
        exact ⟨by simp [frameIds, chainEnd], by simp [hs], fun _ hgap => hgap⟩
      | succ n =>
        rw [generate_eq_unsent_succ file fuel n st hA hs] at h ⊢
        simp only at h
        refine ⟨?_, ?_, ?_⟩
        · simp only [frameIds]
          exact (readFrames_susp file fuel n st.lastPos st.remaining st2 h).2.2
        · intro
          exact (readFrames_susp file fuel n st.lastPos st.remaining st2 h).2.1
        · intro hloop hgap
          exact (readFrames_lt file hloop fuel n st.lastPos st.remaining hgap).2 st2 h

theorem generate_lt (file : FileModel) (hloop : file.loop = false)
    (fuel count : Nat) (st : GenState)
    (hgap : gapOk st.lastPos (streamPositions file st.remaining) = true) :
    ∀ id ∈ frameIds (generate file fuel count st).1, id.i1 < id.i2 := by
  by_cases hA : ¬ st.fmtOpen = true ∧ ¬ file.initOk = true
  · rw [generate_eq_init_fail file fuel count st hA]
    simp [frameIds]
  · cases hs : st.metadataSent with
    | true =>
      rw [generate_eq_sent file fuel count st hA hs]
      exact (readFrames_lt file hloop fuel count st.lastPos st.remaining hgap).1
    | false =>
      cases count with
      | zero =>
        rw [generate_eq_unsent_zero file fuel st hA hs]
        simp [frameIds]
      | succ n =>
        rw [generate_eq_unsent_succ file fuel n st hA hs]
        simp only [frameIds]
        exact (readFrames_lt file hloop fuel n st.lastPos st.remaining hgap).1

theorem generate_unsent (file : FileModel) (fuel count : Nat) (st : GenState)
    (h : st.metadataSent = false) :
    ((generate file fuel count st).1 = [] ∧
      ∀ st2, (generate file fuel count st).2 = GenOutcome.suspended st2 →
        st2.metadataSent = false) ∨
    (∃ tail, (generate file fuel count st).1 =
        encoded_packet.metadata file.codecName file.extradata :: tail ∧
      metaCount tail = 0 ∧
      ∀ st2, (generate file fuel count st).2 = GenOutcome.suspended st2 →
        st2.metadataSent = true) := by
  by_cases hA : ¬ st.fmtOpen = true ∧ ¬ file.initOk = true
  · rw [generate_eq_init_fail file fuel count st hA]
    exact Or.inl ⟨rfl, by simp⟩
  · cases count with
    | zero =>
      rw [generate_eq_unsent_zero file fuel st hA h]
      left
      refine ⟨rfl, ?_⟩
      intro st2 hst2
      simp only [GenOutcome.suspended.injEq] at hst2
      subst hst2
      exact h
    | succ n =>
      rw [generate_eq_unsent_succ file fuel n st hA h]
      right
      refine ⟨(readFrames file fuel n st.lastPos st.remaining).1, rfl,
        readFrames_meta file fuel n st.lastPos st.remaining, ?_⟩
      intro st2 hst2
      simp only at hst2
      exact (readFrames_susp file fuel n st.lastPos st.remaining st2 hst2).2.1

theorem generate_no_error (file : FileModel) (hinit : file.initOk = true)
    (hread : file.readError = false) (fuel count : Nat) (st : GenState)
    (e : video_error) :
    (generate file fuel count st).2 ≠ GenOutcome.errored e := by
  have hA : ¬ (¬ st.fmtOpen = true ∧ ¬ file.initOk = true) := by
    rw [hinit]
    simp
  cases hs : st.metadataSent with
  | true =>
    rw [generate_eq_sent file fuel count st hA hs]
    exact readFrames_no_error file hread fuel count st.lastPos st.remaining e
  | false =>
    cases count with
    | zero =>
      rw [generate_eq_unsent_zero file fuel st hA hs]
      simp
    | succ n =>
      rw [generate_eq_unsent_succ file fuel n st hA hs]
      exact readFrames_no_error file hread fuel n st.lastPos st.remaining e

theorem runCalls_chain (file : FileModel) (fuel : Nat) :
    ∀ (demands : List Nat) (st : GenState),
    idChainFrom st.lastPos (frameIds (runCalls file fuel demands st).1)
  | [], st => by simp [runCalls, frameIds, idChainFrom]
  | n :: ns, st => by
    have hgen := generate_chain file fuel n st
    cases hr : (generate file fuel n st).2 with
    | suspended st2 =>
      have hsusp := generate_susp file fuel n st st2 hr
      have ih := runCalls_chain file fuel ns st2
      simp only [runCalls, hr]
      rw [frameIds_append]
      exact idChainFrom_append _ _ _ hgen (by rw [← hsusp.1]; exact ih)
    | completed =>
      simp only [runCalls, hr]
      exact hgen
    | errored e =>
      simp only [runCalls, hr]
      exact hgen

theorem runCalls_meta_sent (file : FileModel) (fuel : Nat) :
    ∀ (demands : List Nat) (st : GenState),
    st.metadataSent = true → metaCount (runCalls file fuel demands st).1 = 0
  | [], _, _ => by simp [runCalls, metaCount]
  | n :: ns, st, hs => by
    have hg := generate_meta_sent file fuel n st hs
    cases hr : (generate file fuel n st).2 with
    | suspended st2 =>
      have hsusp := generate_susp file fuel n st st2 hr
      have ih := runCalls_meta_sent file fuel ns st2 (hsusp.2.1 hs)
      simp only [runCalls, hr]
      rw [metaCount_append, hg, ih]
    | completed =>
      simp only [runCalls, hr]
      exact hg
    | errored e =>
      simp only [runCalls, hr]
      exact hg

theorem runCalls_meta_unsent (file : FileModel) (fuel : Nat) :
    ∀ (demands : List Nat) (st : GenState),
    st.metadataSent = false →
    (runCalls file fuel demands st).1 = [] ∨
    ∃ tail, (runCalls file fuel demands st).1 =
        encoded_packet.metadata file.codecName file.extradata :: tail ∧
      metaCount tail = 0
  | [], _, _ => by simp [runCalls]
  | n :: ns, st, hs => by
    cases hr : (generate file fuel n st).2 with
    | suspended st2 =>
      rcases generate_unsent file fuel n st hs with ⟨hout, hst2⟩ | ⟨tail, hout, htail, hst2⟩
      · have ih := runCalls_meta_unsent file fuel ns st2 (hst2 st2 hr)
        simp only [runCalls, hr, hout]
        simpa using ih
      · have hsent2 := hst2 st2 hr
        have ih := runCalls_meta_sent file fuel ns st2 hsent2
        simp only [runCalls, hr, hout]
        right
        refine ⟨tail ++ (runCalls file fuel ns st2).1, by simp, ?_⟩
        rw [metaCount_append, htail, ih]
    | completed =>
      rcases generate_unsent file fuel n st hs with ⟨hout, _⟩ | ⟨tail, hout, htail, _⟩
      · simp only [runCalls, hr, hout]
        exact Or.inl trivial
      · simp only [runCalls, hr, hout]
        exact Or.inr ⟨tail, rfl, htail⟩
    | errored e =>
      rcases generate_unsent file fuel n st hs with ⟨hout, _⟩ | ⟨tail, hout, htail, _⟩
      · simp only [runCalls, hr, hout]
        exact Or.inl trivial
      · simp only [runCalls, hr, hout]
        exact Or.inr ⟨tail, rfl, htail⟩

theorem runCalls_lt (file : FileModel) (hloop : file.loop = false) (fuel : Nat) :
    ∀ (demands : List Nat) (st : GenState),
    gapOk st.lastPos (streamPositions file st.remaining) = true →
    ∀ id ∈ frameIds (runCalls file fuel demands st).1, id.i1 < id.i2
  | [], _, _ => by simp [runCalls, frameIds]
  | n :: ns, st, hgap => by
    have hg := generate_lt file hloop fuel n st hgap
    cases hr : (generate file fuel n st).2 with
    | suspended st2 =>
      have hsusp := generate_susp file fuel n st st2 hr
      have ih := runCalls_lt file hloop fuel ns st2 (hsusp.2.2 hloop hgap)
      simp only [runCalls, hr]
      rw [frameIds_append]
      intro id hid
      rcases List.mem_append.mp hid with hid | hid
      · exact hg id hid
      · exact ih id hid
    | completed =>
      simp only [runCalls, hr]
      exact hg
    | errored e =>
      simp only [runCalls, hr]
      exact hg

theorem runCalls_terminal (file : FileModel) (hinit : file.initOk = true)
    (hread : file.readError = false) (fuel : Nat) :
    ∀ (demands : List Nat) (st : GenState) (t : StreamTerminal),
    (runCalls file fuel demands st).2 = some t → t = StreamTerminal.complete
  | [], _, t => by simp [runCalls]
  | n :: ns, st, t => by
    intro h
    cases hr : (generate file fuel n st).2 with
    | suspended st2 =>
      simp only [runCalls, hr] at h
      exact runCalls_terminal file hinit hread fuel ns st2 t h
    | completed =>
      simp only [runCalls, hr, Option.some.injEq] at h
      exact h.symm
    | errored e =>
      exact absurd hr (generate_no_error file hinit hread fuel n st e)

/-- C3 (amended): for every file-source subscription - looping or not,
under any demand schedule and any seek depth - any two successive emitted
frames satisfy next.i1 = prev.i2 + 1.  For a source that does not loop,
every emitted frame id additionally satisfies i1 < i2 provided every
video-stream packet lies at a byte position strictly beyond the running
_last_pos (first position at least 1, each later one at least two beyond
the previous).  The i1 < i2 half of the original claim is not
unconditional: the code sets id to [_last_pos, pkt.pos] without checking
pkt.pos against _last_pos, and after a loop seek the rewound positions
fall below the already-advanced _last_pos. -/
theorem file_source_frame_id_invariants (file : FileModel) (fuel : Nat)
    (demands : List Nat) :
    idChain (frameIds (runSource file fuel demands).1) ∧
    (file.loop = false →
      gapOk 0 (streamPositions file file.packets) = true →
      ∀ id ∈ frameIds (runSource file fuel demands).1, id.i1 < id.i2) := by
  constructor
  · exact idChainFrom_idChain _ 0 (runCalls_chain file fuel demands (initState file))
  · intro hloop hgap
    exact runCalls_lt file hloop fuel demands (initState file) hgap

/-- Witness for file_source_frame_id_invariants: a non-looping two-packet
file with well-gapped positions. -/
theorem file_source_frame_id_invariants_witness :
    (FileModel.mk true false
        [AVPacket.mk [5] 3 0 0 true, AVPacket.mk [6] 7 0 1 false]
        false 0 "h264" [1] 1 25).loop = false ∧
    gapOk 0 (streamPositions (FileModel.mk true false
        [AVPacket.mk [5] 3 0 0 true, AVPacket.mk [6] 7 0 1 false]
        false 0 "h264" [1] 1 25)
      (FileModel.mk true false
        [AVPacket.mk [5] 3 0 0 true, AVPacket.mk [6] 7 0 1 false]
        false 0 "h264" [1] 1 25).packets) = true ∧
    (∀ id ∈ frameIds (runSource (FileModel.mk true false
        [AVPacket.mk [5] 3 0 0 true, AVPacket.mk [6] 7 0 1 false]
        false 0 "h264" [1] 1 25) 1 [5]).1, id.i1 < id.i2) :=
  ⟨rfl, by decide,
    (file_source_frame_id_invariants (FileModel.mk true false
        [AVPacket.mk [5] 3 0 0 true, AVPacket.mk [6] 7 0 1 false]
        false 0 "h264" [1] 1 25) 1 [5]).2 rfl (by decide)⟩

/-- C3 counterexample: a non-looping file whose single video packet sits
at byte position 0 makes the file source emit the frame id [0, 0], which
violates the claimed id.i1 < id.i2. -/
theorem file_source_frame_id_counterexample :
    frameIds (runSource (FileModel.mk true false [AVPacket.mk [1] 0 0 0 true]
        false 0 "h264" [1] 1 25) 1 [2]).1 = [⟨0, 0⟩] ∧
    ¬ ((⟨0, 0⟩ : frame_id).i1 < (⟨0, 0⟩ : frame_id).i2) := by
  decide

/-- C7 (amended): when the file source, not configured to loop, reaches
the end of its input (and init succeeded and no mid-stream read error
occurs), the subscription terminates with on_complete - normal
completion - not with an error.  Stated for every file model: a looping
subscription never reaches a terminal event under these hypotheses, so
any terminal that occurs is the non-looping EOF completion. -/
theorem file_source_eof_completes (file : FileModel) (fuel : Nat) (demands : List Nat)
    (hinit : file.initOk = true) (hread : file.readError = false) :
    ∀ t, (runSource file fuel demands).2 = some t → t = StreamTerminal.complete :=
  fun t h => runCalls_terminal file hinit hread fuel demands (initState file) t h

/-- Witness for file_source_eof_completes: an empty non-looping file
drained with demand 2 completes. -/
theorem file_source_eof_completes_witness :
    (FileModel.mk true false [] false 0 "h264" [1] 1 25).initOk = true ∧
    (FileModel.mk true false [] false 0 "h264" [1] 1 25).readError = false ∧
    (runSource (FileModel.mk true false [] false 0 "h264" [1] 1 25) 1 [2]).2 =
      some StreamTerminal.complete ∧
    StreamTerminal.complete = StreamTerminal.complete :=
  ⟨rfl, rfl, by decide,
    file_source_eof_completes (FileModel.mk true false [] false 0 "h264" [1] 1 25) 1 [2]
      rfl rfl StreamTerminal.complete (by decide)⟩

/-- C7 counterexample: at end of input with loop=false the subscription
terminates with on_complete, not with the EndOfStreamError error kind the
claim states. -/
theorem file_source_eof_error_counterexample :
    (runSource (FileModel.mk true false [] false 0 "h264" [1] 1 25) 1 [2]).2 =
      some StreamTerminal.complete ∧
    some StreamTerminal.complete ≠
      some (StreamTerminal.errored video_error.EndOfStreamError) := by
  decide

/-- C10: on every file-source subscription - looping or not, under any
demand schedule and any seek depth - the first emitted packet (if any) is
the metadata packet carrying the decoder name and extradata; metadata is
emitted at most once, exactly once as soon as anything is emitted, and
every generate call emits at most as many packets as the demanded count
(the metadata emission is counted against the demand). -/
theorem file_source_metadata_first (file : FileModel) (fuel : Nat)
    (demands : List Nat) :
    (∀ pkt, ((runSource file fuel demands).1).head? = some pkt →
      pkt = encoded_packet.metadata file.codecName file.extradata) ∧
    ((runSource file fuel demands).1 ≠ [] →
      metaCount (runSource file fuel demands).1 = 1) ∧
    (∀ (fuel2 count : Nat) (st : GenState),
      (generate file fuel2 count st).1.length ≤ count) := by
  have hcases := runCalls_meta_unsent file fuel demands (initState file) rfl
  refine ⟨?_, ?_, fun fuel2 count st => generate_len file fuel2 count st⟩
  · intro pkt hpkt
    rcases hcases with hout | ⟨tail, hout, _⟩
    · rw [show runSource file fuel demands = runCalls file fuel demands (initState file)
          from rfl, hout] at hpkt
      simp at hpkt
    · rw [show runSource file fuel demands = runCalls file fuel demands (initState file)
          from rfl, hout] at hpkt
      simp only [List.head?_cons, Option.some.injEq] at hpkt
      exact hpkt.symm
  · intro hne
    rcases hcases with hout | ⟨tail, hout, htail⟩
    · exact absurd hout hne
    · rw [show runSource file fuel demands = runCalls file fuel demands (initState file)
          from rfl, hout]
      simp [metaCount, htail]

/-- Witness for file_source_metadata_first at a looping one-packet file
driven through two seek passes: the output is the metadata followed by
frames only. -/
theorem file_source_metadata_first_witness :
    ((runSource (FileModel.mk true true [AVPacket.mk [5] 3 0 0 true]
        false 0 "h264" [9] 1 25) 2 [5]).1).head? =
      some (encoded_packet.metadata "h264" [9]) ∧
    ((runSource (FileModel.mk true true [AVPacket.mk [5] 3 0 0 true]
        false 0 "h264" [9] 1 25) 2 [5]).1 ≠ []) ∧
    metaCount (runSource (FileModel.mk true true [AVPacket.mk [5] 3 0 0 true]
        false 0 "h264" [9] 1 25) 2 [5]).1 = 1 :=
  ⟨by decide, by decide,
    (file_source_metadata_first (FileModel.mk true true [AVPacket.mk [5] 3 0 0 true]
        false 0 "h264" [9] 1 25) 2 [5]).2.1 (by decide)⟩

/- ===================== File source pacing ===================== -/

/-- How a source publisher is delivered: raw (pull as fast as demanded) or
piped through the asio interval operator with the given period in
milliseconds. -/
inductive source_pacing
  | raw
  | paced (period_ms : Nat)
deriving DecidableEq, Repr

/-- Embedded from src/unnamed/part_002 file_source: the fps constant used
for pacing (int fps = 25, with a todo noting the real rate is not read). -/
def file_source_fps : Nat := 25

/-- Embedded from src/unnamed/part_002 file_source: the stateful generator
(modelled by generate/runSource above) is returned raw in batch mode;
otherwise it is piped through streams::asio::interval with period
1000/fps milliseconds. -/
def file_source_pacing (batch : Bool) : source_pacing :=
  if batch then source_pacing.raw
  else source_pacing.paced (1000 / file_source_fps)

/-- C8: in batch mode the file source is the raw stateful generator with
no interval pacer; in live mode it is paced at 1000/FPS milliseconds with
FPS = 25, i.e. one value at most every 40 ms. -/
theorem file_source_pacing_spec :
    file_source_pacing true = source_pacing.raw ∧
    file_source_pacing false = source_pacing.paced 40 ∧
    1000 / file_source_fps = 40 := by
  decide

/- ===================== Bot environment signal handler ===================== -/

/-- Embedded from src/src/bot_environment.cpp line 190-191: the signals
registered for the shutdown handler (SIGINT=2, SIGTERM=15, SIGQUIT=3). -/
def shutdown_signals : List Nat := [2, 15, 3]

/-- Embedded from src/src/bot_environment.cpp line 260: the signals the
pipeline's signal breaker listens to. -/
def breaker_signals : List Nat := [2, 15, 3]

/-- Embedded from src/src/bot_environment.cpp lines 192-201: the shutdown
note the registered signal handler builds - a two-entry map carrying the
bot id and a farewell note. -/
def shutdown_note (botId : String) : List (String × String) :=
  [("bot_id", botId), ("note", "see you in next life")]

/-- Embedded from src/src/bot_environment.cpp line 200: the channel the
handler publishes the shutdown note to is the string literal "test". -/
def shutdown_publish_channel : String := "test"

/-- The channel-suffix contract for control messages (spec section 6):
control messages flow on a channel of the form <channel>/control. -/
def control_channel_suffix : String := "/control"

/-- C6 (evidence of the divergence): on delivery of a registered signal
the handler publishes the shutdown note, which does carry the bot id
under the key bot_id, but the publish goes to the literal channel "test",
which is not of the form <channel>/control for any channel; the claim
that the shutdown message is published on the control channel does not
hold in the code. -/
theorem shutdown_publish_not_control :
    shutdown_publish_channel = "test" ∧
    (shutdown_note "my-bot").head? = some ("bot_id", "my-bot") ∧
    (∀ ch : String, shutdown_publish_channel ≠ ch ++ control_channel_suffix) ∧
    shutdown_signals = [2, 15, 3] ∧ breaker_signals = [2, 15, 3] := by
  refine ⟨rfl, rfl, ?_, rfl, rfl⟩
  intro ch h
  have hlen := congrArg String.length h
  simp only [String.length_append] at hlen
  have h4 : shutdown_publish_channel.length = 4 := rfl
  have h8 : control_channel_suffix.length = 8 := rfl
  omega

/- ===================== Deferred value (error_or) ===================== -/

/-- Embedded from src/src/streams/stream_error.cpp: the stream error
kinds of the deferred-value primitive. -/
inductive stream_error
  | ValueWasMoved
  | NotInitialized
deriving DecidableEq, Repr

/-- Modelled from the spec: error_or.h is not among the given sources
(only its test, src/unnamed/part_001, and the error kinds in
stream_error.cpp are).  Spec section 9, Deferred value: the process
helper returns a one-shot future-like token, write-once and
single-reader, failing with ValueWasMoved on double-read and
NotInitialized when queried before the terminal outcome has resolved.
The holder is unresolved, resolved with a value, or holding an error
(also after the value has been moved out). -/
inductive deferred_state (α : Type)
  | unresolved
  | value (a : α)
  | error (e : stream_error)
deriving DecidableEq, Repr

/-- Reading (moving) the value out: a resolved holder yields its value
and is left in the ValueWasMoved error state; an unresolved holder fails
with NotInitialized; a holder in an error state returns that error. -/
def deferred_move {α : Type} :
    deferred_state α → Except stream_error α × deferred_state α
  | deferred_state.unresolved =>
      (Except.error stream_error.NotInitialized, deferred_state.unresolved)
  | deferred_state.value a =>
      (Except.ok a, deferred_state.error stream_error.ValueWasMoved)
  | deferred_state.error e => (Except.error e, deferred_state.error e)

/-- Whether the holder currently holds a value (check_ok in the
error_or test, src/unnamed/part_001). -/
def deferred_ok {α : Type} : deferred_state α → Bool
  | deferred_state.value _ => true
  | _ => false

/-- C9: the deferred value is write-once and single-reader: moving the
value a second time fails with ValueWasMoved, querying before the
terminal outcome has resolved fails with NotInitialized, and after the
value has been moved out the holder is observably not ok. -/
theorem deferred_single_reader {α : Type} (a : α) :
    (deferred_move (deferred_state.value a)).1 = Except.ok a ∧
    (deferred_move (deferred_move (deferred_state.value a)).2).1 =
      Except.error stream_error.ValueWasMoved ∧
    (deferred_move (deferred_state.unresolved : deferred_state α)).1 =
      Except.error stream_error.NotInitialized ∧
    deferred_ok (deferred_move (deferred_state.value a)).2 = false :=
  ⟨rfl, rfl, rfl, rfl⟩

/-- Witness for deferred_single_reader at a concrete value. -/
theorem deferred_single_reader_witness :
    (deferred_move (deferred_state.value (42 : Nat))).1 = Except.ok 42 ∧
    (deferred_move (deferred_move (deferred_state.value (42 : Nat))).2).1 =
      Except.error stream_error.ValueWasMoved ∧
    (deferred_move (deferred_state.unresolved : deferred_state Nat)).1 =
      Except.error stream_error.NotInitialized ∧
    deferred_ok (deferred_move (deferred_state.value (42 : Nat))).2 = false :=
  deferred_single_reader 42

/- ===================== Stream combinators (spec-modelled) ===================== -/

/-- Terminal event of a pure stream: completion or an opaque error
condition (carried as a numeric code). -/
inductive PTerminal
  | complete
  | error (e : Nat)
deriving DecidableEq, Repr

/-- Modelled from the spec: streams_impl.h, the implementation of the
generic combinators, is not among the given sources (streams.h declares
them only).  Spec section 3: a publisher, when subscribed, produces at
most one linear sequence of values followed by exactly one terminal
event; this models the observable behaviour of a pure publisher as that
sequence plus its terminal. -/
structure PureStream (α : Type) where
  values : List α
  terminal : PTerminal
deriving DecidableEq, Repr

/-- Modelled from the spec (4.B): publishers::range(from, to) emits the
values of the half-open interval [from, to) in order, then completes. -/
def rangePure (lo hi : Int) : PureStream Int :=
  ⟨(List.range (hi - lo).toNat).map (fun i => lo + i), PTerminal.complete⟩

/-- Modelled from the spec (4.B flat_map): for each upstream value x the
inner publisher f(x) is subscribed and drained fully before the next
outer value is requested; an inner error terminates the whole pipeline;
completion is signalled when the outer and the final inner complete. -/
def flatMapRun {α β : Type} (f : α → PureStream β) :
    List α → PTerminal → PureStream β
  | [], t => ⟨[], t⟩
  | x :: xs, t =>
      match (f x).terminal with
      | PTerminal.complete =>
          ⟨(f x).values ++ (flatMapRun f xs t).values, (flatMapRun f xs t).terminal⟩
      | PTerminal.error e => ⟨(f x).values, PTerminal.error e⟩

def flatMapPure {α β : Type} (f : α → PureStream β) (src : PureStream α) :
    PureStream β :=
  flatMapRun f src.values src.terminal

theorem flatMapRun_all_complete {α β : Type} (f : α → PureStream β) :
    ∀ (xs : List α) (t : PTerminal),
    (∀ x ∈ xs, (f x).terminal = PTerminal.complete) →
    flatMapRun f xs t = ⟨(xs.map (fun x => (f x).values)).flatten, t⟩
  | [], t, _ => by simp [flatMapRun]
  | x :: xs, t, h => by
    have hx : (f x).terminal = PTerminal.complete := h x (by simp)
    have ih := flatMapRun_all_complete f xs t (fun y hy => h y (by simp [hy]))
    simp only [flatMapRun, hx, ih, List.map_cons, List.flatten_cons]

/-- C2: flat_map drains each inner publisher fully before requesting the
next outer value - when every inner completes, the output is exactly the
concatenation of the inner value sequences in outer order, followed by
the outer terminal - and the concrete pipeline
range(1,4) >> flat_map(i -> range(0,i)) emits exactly 0, 0, 1, 0, 1, 2
followed by on_complete. -/
theorem flat_map_sequential :
    (∀ (α β : Type) (f : α → PureStream β) (src : PureStream α),
      (∀ x ∈ src.values, (f x).terminal = PTerminal.complete) →
      flatMapPure f src =
        ⟨(src.values.map (fun x => (f x).values)).flatten, src.terminal⟩) ∧
    flatMapPure (fun i => rangePure 0 i) (rangePure 1 4) =
      ⟨[0, 0, 1, 0, 1, 2], PTerminal.complete⟩ := by
  constructor
  · intro α β f src hall
    exact flatMapRun_all_complete f src.values src.terminal hall
  · decide

/-- Witness for flat_map_sequential applied at the concrete pipeline. -/
theorem flat_map_sequential_witness :
    (∀ x ∈ (rangePure 1 4).values, (rangePure 0 x).terminal = PTerminal.complete) ∧
    flatMapPure (fun i => rangePure 0 i) (rangePure 1 4) =
      ⟨((rangePure 1 4).values.map (fun x => (rangePure 0 x).values)).flatten,
        (rangePure 1 4).terminal⟩ :=
  ⟨by decide,
    flat_map_sequential.1 Int Int (fun i => rangePure 0 i) (rangePure 1 4) (by decide)⟩

/-- An event observed at one point of a pipeline during a run. -/
inductive RunEvent (α : Type)
  | next (a : α)
  | complete
  | error (e : Nat)
  | cancel
deriving DecidableEq, Repr

/-- Modelled from the spec (sections 3, 4.B and 5): the event sequence
passing through one point of a pipeline during one run over publisher
src.  If the downstream cancels after k values (with k values still
available upstream), the point observes k next events followed by one
cancel; otherwise it observes all values followed by the upstream
terminal.  Exactly one terminal event - complete, error or cancel - ends
the run. -/
def runTrace {α : Type} (src : PureStream α) (cancelAfter : Option Nat) :
    List (RunEvent α) :=
  match cancelAfter with
  | some k =>
      if k < src.values.length then
        ((src.values.take k).map RunEvent.next) ++ [RunEvent.cancel]
      else
        (src.values.map RunEvent.next) ++
          [match src.terminal with
           | PTerminal.complete => RunEvent.complete
           | PTerminal.error e => RunEvent.error e]
  | none =>
      (src.values.map RunEvent.next) ++
        [match src.terminal with
         | PTerminal.complete => RunEvent.complete
         | PTerminal.error e => RunEvent.error e]

/-- Modelled from the spec (4.B do_finally): the do_finally stage invokes
fn on each terminal event it observes - upstream completion, upstream
error, or downstream cancellation.  This counts those invocations over a
trace. -/
def finallyInvocations {α : Type} : List (RunEvent α) → Nat
  | [] => 0
  | RunEvent.next _ :: rest => finallyInvocations rest
  | RunEvent.complete :: rest => finallyInvocations rest + 1
  | RunEvent.error _ :: rest => finallyInvocations rest + 1
  | RunEvent.cancel :: rest => finallyInvocations rest + 1

theorem finallyInvocations_nexts {α : Type} :
    ∀ (vs : List α) (tail : List (RunEvent α)),
    finallyInvocations (vs.map RunEvent.next ++ tail) = finallyInvocations tail
  | [], _ => rfl
  | v :: vs, tail => by
    simp only [List.map_cons, List.cons_append, finallyInvocations, List.append_eq,
      finallyInvocations_nexts vs tail]

/-- C1: for every publisher and every insertion point of do_finally(fn)
(characterised by the value prefix the stage observes and whether the
run ends by upstream completion, upstream error, or downstream
cancellation after some number of values), fn is invoked exactly once
per run. -/
theorem do_finally_once {α : Type} (src : PureStream α) (cancelAfter : Option Nat) :
    finallyInvocations (runTrace src cancelAfter) = 1 := by
  cases cancelAfter with
  | none =>
    simp only [runTrace, finallyInvocations_nexts]
    cases src.terminal <;> rfl
  | some k =>
    simp only [runTrace]
    split
    · simp only [finallyInvocations_nexts]
      rfl
    · simp only [finallyInvocations_nexts]
      cases src.terminal <;> rfl

/-- Witness for do_finally_once: a three-value stream cancelled by the
downstream after one value still fires exactly once. -/
theorem do_finally_once_witness :
    finallyInvocations
      (runTrace (⟨[3, 1, 2], PTerminal.complete⟩ : PureStream Nat) (some 1)) = 1 :=
  do_finally_once ⟨[3, 1, 2], PTerminal.complete⟩ (some 1)

end SatoriVideo
